import Mathlib

/-!
Shallow embedding of the question-batch engine of `bot_blackhouse.py`
(class `QuestaoService`, the fallback bank, and the job scheduler), together
with proofs of the behavioural claims about it.

Conventions of the embedding:
* Python machine state that the code mutates (`_historico`, `_historico_set`)
  becomes an explicit `SvcState` record threaded through the functions.
* JSON values returned by `resp.json()` are modelled by the inductive `JVal`
  (JSON numbers are modelled as integers, which covers every value the
  normaliser's claims are about).
* Python truthiness (`if not dados`), `int(...)` coercion and `str(...)`
  coercion are modelled by `pyTruthy`, `pyInt` and `pyStr`.
* Nondeterminism (`requests.get`, `random.choice`, `random.shuffle`) is
  modelled by an `Oracle` record: `api n` is the value the n-th call to
  `_chamar_api_bruto` produces inside `buscar_lote`, `pick n` drives
  `random.choice`, and `shuffle` is the permutation `random.shuffle` applies.
* The unbounded `while` loop of `_buscar_lote_fallback` is given explicit
  fuel; a result of `none` means the loop has not terminated within that
  fuel (for any fuel), which is how its divergence is expressed.
-/

/-! ## JSON values and Python coercion semantics -/

inductive JVal where
  | null : JVal
  | bool : Bool → JVal
  | int : Int → JVal
  | str : String → JVal
  | arr : List JVal → JVal
  | obj : List (String × JVal) → JVal

/-- Membership/lookup in a Python dict (keys are treated as unique). -/
def getKey (k : String) : List (String × JVal) → Option JVal
  | [] => none
  | (k1, v) :: rest => if k1 = k then some v else getKey k rest

/-- Python truthiness of a JSON value (`if not dados`, `q.get("topico") or ...`). -/
def pyTruthy : JVal → Bool
  | .null => false
  | .bool b => b
  | .int n => !(n == 0)
  | .str s => !(s == "")
  | .arr xs => !xs.isEmpty
  | .obj fs => !fs.isEmpty

/-- Python `str.strip()` with no argument: remove leading and trailing
whitespace (space, tab, carriage return, newline). -/
def pyStrip (s : String) : String :=
  ⟨((s.data.dropWhile Char.isWhitespace).reverse.dropWhile Char.isWhitespace).reverse⟩

/-- Digit run of a Python integer literal; a single underscore may separate digits. -/
def digitosVal (acc : Nat) : List Char → Option Nat
  | [] => some acc
  | c :: rest =>
    if c.isDigit then digitosVal (acc * 10 + (c.toNat - 48)) rest
    else if c = '_' then
      match rest with
      | d :: rest2 =>
        if d.isDigit then digitosVal (acc * 10 + (d.toNat - 48)) rest2 else none
      | [] => none
    else none

/-- Python `int(s)` on a decimal string: optional surrounding whitespace,
optional sign, then digits (underscores allowed between digits). -/
def pyIntStr (s : String) : Option Int :=
  match (pyStrip s).toList with
  | '+' :: d :: rest =>
    if d.isDigit then (digitosVal 0 (d :: rest)).map Int.ofNat else none
  | '-' :: d :: rest =>
    if d.isDigit then (digitosVal 0 (d :: rest)).map (fun n => -(n : Int)) else none
  | d :: rest =>
    if d.isDigit then (digitosVal 0 (d :: rest)).map Int.ofNat else none
  | [] => none

/-- Python `int(v)`: integers pass through, booleans become 0/1, strings are
parsed; everything else (None, lists, dicts) raises, modelled as `none`. -/
def pyInt : JVal → Option Int
  | .int n => some n
  | .bool b => some (if b then 1 else 0)
  | .str s => pyIntStr s
  | _ => none

/-- Python repr escaping for characters inside a single-quoted string. -/
def pyEscapeChar (c : Char) : String :=
  if c = Char.ofNat 92 then "\\\\"
  else if c = Char.ofNat 39 then "\\" ++ String.singleton (Char.ofNat 39)
  else if c = Char.ofNat 10 then "\\n"
  else if c = Char.ofNat 13 then "\\r"
  else if c = Char.ofNat 9 then "\\t"
  else String.singleton c

def pyEscape (s : String) : String :=
  String.join (s.toList.map pyEscapeChar)

mutual

/-- Python `repr(v)` of a JSON value. -/
def pyRepr : JVal → String
  | .null => "None"
  | .bool true => "True"
  | .bool false => "False"
  | .int n => toString n
  | .str s =>
    String.singleton (Char.ofNat 39) ++ pyEscape s ++ String.singleton (Char.ofNat 39)
  | .arr xs => "[" ++ String.intercalate ", " (pyReprList xs) ++ "]"
  | .obj fs => "\x7b" ++ String.intercalate ", " (pyReprObj fs) ++ "\x7d"

def pyReprList : List JVal → List String
  | [] => []
  | x :: xs => pyRepr x :: pyReprList xs

def pyReprObj : List (String × JVal) → List String
  | [] => []
  | (k, v) :: fs => (pyRepr (.str k) ++ ": " ++ pyRepr v) :: pyReprObj fs

end

/-- Python `str(v)`: identity on strings, `repr` otherwise. -/
def pyStr (v : JVal) : String :=
  match v with
  | .str s => s
  | _ => pyRepr v

/-! ## Data model: `Questao` and the service state -/

/-- Dedup fingerprint: `(trimmed pergunta, correta)`. -/
abbrev Chave := String × Int

/-- The `Questao` dataclass. -/
structure Questao where
  pergunta : String
  opcoes : List String
  correta : Int
  comentario : String
  topico : String
deriving DecidableEq, Inhabited

/-- `Questao.chave` property: `(self.pergunta.strip(), self.correta)`. -/
def Questao.chave (q : Questao) : Chave := (pyStrip q.pergunta, q.correta)

/-- The mutable recency-cache state of `QuestaoService`:
`_historico` (ordered) and `_historico_set` (membership). The Python set is
modelled by a duplicate-free list. -/
structure SvcState where
  historico : List Questao
  historicoSet : List Chave
deriving DecidableEq

/-- The state `QuestaoService.__init__` creates: empty history. -/
def estadoInicial : SvcState := ⟨[], []⟩

/-- Python `xs[-k:]` for a natural `k`: the last `k` elements, except that
`xs[-0:]` is the whole list. -/
def pySliceLast (k : Nat) (xs : List α) : List α :=
  if k = 0 then xs else xs.drop (xs.length - k)

/-- `QuestaoService._registrar_no_historico`: insert-if-absent, then evict the
oldest entries while the history exceeds `historico_limite`, discarding their
fingerprints from the membership set. -/
def registrar (limite : Nat) (s : SvcState) (q : Questao) : SvcState :=
  if q.chave ∈ s.historicoSet then s
  else if limite < (s.historico ++ [q]).length then
    { historico := pySliceLast limite (s.historico ++ [q]),
      historicoSet :=
        ((s.historico ++ [q]).take ((s.historico ++ [q]).length - limite)).foldl
          (fun t a => t.erase a.chave) (q.chave :: s.historicoSet) }
  else ⟨s.historico ++ [q], q.chave :: s.historicoSet⟩

/-! ## `_normalizar_resposta` -/

/-- Per-item normalisation step of `_normalizar_resposta`'s `for q in dados`
loop: require the three keys, require `opcoes` to be a list of length ≥ 2,
require `int(q.get("correta"))` to succeed, then build the `Questao`. -/
def normItem (tp : Option String) (item : JVal) : Option Questao :=
  match item with
  | .obj q =>
    match getKey "pergunta" q, getKey "opcoes" q, getKey "correta" q with
    | some pv, some ov, some cv =>
      match ov with
      | .arr opcoes =>
        if 2 ≤ opcoes.length then
          match pyInt cv with
          | some correta =>
            some
              { pergunta := pyStr pv
                opcoes := opcoes.map pyStr
                correta := correta
                comentario :=
                  (let cm := (getKey "comentario" q).getD (.str "")
                   if pyTruthy cm then pyStr cm else "")
                topico :=
                  (let tv := (getKey "topico" q).getD .null
                   if pyTruthy tv then pyStr tv
                   else
                     match tp with
                     | some t => if t = "" then "Geral" else t
                     | none => "Geral") }
          | none => none
        else none
      | _ => none
    | _, _, _ => none
  | _ => none

/-- `QuestaoService._normalizar_resposta`: accept a bare dict with the three
keys, a dict wrapping a list under "result" or "questoes", or a bare list;
anything else yields `[]`. Items then pass through `normItem`. -/
def normalizarItens (dados : JVal) : List JVal :=
  match dados with
  | .obj fields =>
    match getKey "pergunta" fields, getKey "opcoes" fields, getKey "correta" fields with
    | some _, some _, some _ => [JVal.obj fields]
    | _, _, _ =>
      match getKey "result" fields with
      | some (.arr l) => l
      | _ =>
        match getKey "questoes" fields with
        | some (.arr l) => l
        | _ => []
  | .arr l => l
  | _ => []

def normalizarResposta (dados : JVal) (tp : Option String) : List Questao :=
  (normalizarItens dados).filterMap (normItem tp)

/-! ## Nondeterminism oracle and `buscar_lote` -/

/-- External nondeterminism of one `buscar_lote` call: `api n` is what the
n-th `_chamar_api_bruto` call returns (already collapsed to `none` on total
failure), `pick` drives `random.choice`, `shuffle` models `random.shuffle`. -/
structure Oracle where
  api : Nat → Option JVal
  pick : Nat → Nat
  shuffle : List Questao → List Questao

/-- Inner `for q in questoes_api` loop of `buscar_lote`: skip fingerprints
seen in this batch, skip recently sent ones when `evitar_repetidas`, otherwise
append, record and register; break once the batch reaches `qtd`. -/
def addAll (qtd : Nat) (evitar : Bool) (limite : Nat) :
    List Questao → List Questao → List Chave → SvcState →
    List Questao × List Chave × SvcState
  | [], lote, vistos, s => (lote, vistos, s)
  | q :: rest, lote, vistos, s =>
    if q.chave ∈ vistos then addAll qtd evitar limite rest lote vistos s
    else if evitar ∧ q.chave ∈ s.historicoSet then addAll qtd evitar limite rest lote vistos s
    else
      let lote2 := lote ++ [q]
      let vistos2 := q.chave :: vistos
      let s2 := registrar limite s q
      if qtd ≤ lote2.length then (lote2, vistos2, s2)
      else addAll qtd evitar limite rest lote2 vistos2 s2

/-- Outer `while len(lote) < qtd and tentativas < tentativas_max` loop of
`buscar_lote`. `fuel` is the remaining iteration budget (initially `qtd * 4`),
`t` the number of iterations already done (so the api call index is `t + 1`).
A falsy api result (`if not dados`) breaks out of the loop. -/
def loteLoop (O : Oracle) (limite qtd : Nat) (topico : Option String) (evitar : Bool) :
    Nat → Nat → List Questao → List Chave → SvcState → List Questao × SvcState
  | 0, _, lote, _, s => (lote, s)
  | fuel + 1, t, lote, vistos, s =>
    if qtd ≤ lote.length then (lote, s)
    else
      match O.api (t + 1) with
      | none => (lote, s)
      | some dados =>
        if pyTruthy dados then
          let qs := normalizarResposta dados topico
          if qs.isEmpty then loteLoop O limite qtd topico evitar fuel (t + 1) lote vistos s
          else
            match addAll qtd evitar limite qs lote vistos s with
            | (lote2, vistos2, s2) => loteLoop O limite qtd topico evitar fuel (t + 1) lote2 vistos2 s2
        else (lote, s)

/-! ## The fallback bank and `_buscar_lote_fallback` -/

/-- One raw entry of `FALLBACK_QUESTOES` (all entries carry all five keys). -/
structure RawFb where
  pergunta : String
  opcoes : List String
  correta : Int
  comentario : String
  topico : String
deriving DecidableEq, Inhabited

/-- The embedded fallback bank `FALLBACK_QUESTOES`. -/
def FALLBACK_QUESTOES : List RawFb :=
  [⟨"Fallback: Qual a capital do Brasil?",
    ["Rio de Janeiro", "Brasília", "São Paulo", "Belo Horizonte"], 1,
    "Brasília é a capital federal desde 1960.", "Geral"⟩,
   ⟨"Fallback: 2 + 2 é igual a?",
    ["1", "2", "3", "4"], 3,
    "Operação básica de adição.", "Raciocínio Lógico"⟩]

/-- Base selection of `_buscar_lote_fallback`: when `topico` is truthy, filter
the bank by exact topic match and keep the filtered list if non-empty. -/
def fallbackBase (topico : Option String) : List RawFb :=
  match topico with
  | some t =>
    if t = "" then FALLBACK_QUESTOES
    else
      let f := FALLBACK_QUESTOES.filter (fun r => r.topico == t)
      if f.isEmpty then FALLBACK_QUESTOES else f
  | none => FALLBACK_QUESTOES

/-- `Questao(...)` construction inside `_buscar_lote_fallback` (every bank
entry carries every key, so the `.get` defaults are never used). -/
def fbToQuestao (r : RawFb) : Questao :=
  ⟨r.pergunta, r.opcoes, r.correta, r.comentario, r.topico⟩

/-- The `while len(lote) < qtd and base` loop of `_buscar_lote_fallback`,
with explicit fuel. `none` means the loop did not finish within `fuel` steps;
the loop itself never removes elements from `base` and never accepts a
fingerprint already in `vistos`. -/
def fbLoop (O : Oracle) (limite qtd : Nat) (base : List Questao) :
    Nat → Nat → List Questao → List Chave → SvcState → Option (List Questao × SvcState)
  | 0, _, lote, _, s =>
    if qtd ≤ lote.length ∨ base = [] then some (lote, s) else none
  | fuel + 1, step, lote, vistos, s =>
    if qtd ≤ lote.length ∨ base = [] then some (lote, s)
    else
      let q := base.getD (O.pick step % base.length) default
      if q.chave ∈ vistos then fbLoop O limite qtd base fuel (step + 1) lote vistos s
      else
        fbLoop O limite qtd base fuel (step + 1) (lote ++ [q]) (q.chave :: vistos)
          (registrar limite s q)

/-- `QuestaoService._buscar_lote_fallback`. -/
def buscarLoteFallback (O : Oracle) (limite : Nat) (fuelFB : Nat) (qtd : Nat)
    (topico : Option String) (s : SvcState) : Option (List Questao × SvcState) :=
  fbLoop O limite qtd ((fallbackBase topico).map fbToQuestao) fuelFB 0 [] [] s

/-- `QuestaoService.buscar_lote`: early return for `qtd ≤ 0`, provider loop
with budget `qtd * 4`, then either shuffle-and-truncate the batch or fall
back to the local bank. `none` means the call never returns (the fallback
loop exceeded every `fuelFB`). -/
def buscarLote (O : Oracle) (limite : Nat) (fuelFB : Nat) (qtd : Int)
    (topico : Option String) (evitar : Bool) (s : SvcState) :
    Option (List Questao × SvcState) :=
  if qtd ≤ 0 then some ([], s)
  else if (loteLoop O limite qtd.toNat topico evitar (qtd.toNat * 4) 0 [] [] s).1 = [] then
    buscarLoteFallback O limite fuelFB qtd.toNat topico
      (loteLoop O limite qtd.toNat topico evitar (qtd.toNat * 4) 0 [] [] s).2
  else
    some ((O.shuffle (loteLoop O limite qtd.toNat topico evitar (qtd.toNat * 4) 0 [] [] s).1).take
        qtd.toNat,
      (loteLoop O limite qtd.toNat topico evitar (qtd.toNat * 4) 0 [] [] s).2)

/-! ## `_chamar_api_bruto` (retry with exponential backoff) -/

/-- The `for tentativa in range(1, max_retries + 1)` loop of
`_chamar_api_bruto`. `t` is the current attempt number, the second argument
the number of attempts still allowed. The result records the returned value,
the number of attempts actually made, and the sleeps performed (in order);
the sleep after a failed attempt `t` is `backoff_base * 2^(t-1)` and no sleep
follows the final failed attempt. -/
def apiLoop (provider : Nat → Option JVal) (base : ℚ) :
    Nat → Nat → Option JVal × Nat × List ℚ
  | _, 0 => (none, 0, [])
  | t, fuel + 1 =>
    match provider t with
    | some v => (some v, 1, [])
    | none =>
      if fuel = 0 then (none, 1, [])
      else
        match apiLoop provider base (t + 1) fuel with
        | (r, n, sleeps) => (r, n + 1, base * 2 ^ (t - 1) :: sleeps)

/-- `QuestaoService._chamar_api_bruto`: skip entirely when the api url is
empty, otherwise run attempts 1..max_retries. `provider t` is the outcome of
attempt `t` (`none` = transport error, non-2xx status or unparsable JSON). -/
def chamarApiBruto (apiUrl : String) (maxRetries : Nat) (base : ℚ)
    (provider : Nat → Option JVal) : Option JVal × Nat × List ℚ :=
  if apiUrl = "" then (none, 0, []) else apiLoop provider base 1 maxRetries

/-! ## Scheduler (`HORARIOS_AUTOMATICOS`, `configurar_jobs`) -/

/-- One job registered by `job_queue.run_daily`. -/
structure JobDiario where
  hora : Nat × Nat
  topico : String
  nome : String
deriving DecidableEq

/-- The configured automatic slots `HORARIOS_AUTOMATICOS`. -/
def HORARIOS_AUTOMATICOS : List ((Nat × Nat) × String) :=
  [((8, 0), "Penal"), ((13, 0), "Constitucional"), ((19, 0), "Raciocínio Lógico")]

/-- `configurar_jobs`: one daily job per configured slot, with fixed
`data={"topico": topico}`. -/
def configurarJobs : List JobDiario :=
  HORARIOS_AUTOMATICOS.map (fun ht => ⟨ht.1, ht.2, "auto_" ++ ht.2⟩)

/-- Topic the scheduler resolves for time slot `slot` on day-of-month `d`:
`run_daily` fires the same job with the same fixed data every calendar day,
so the resolution does not consult the date at all. -/
def topicoResolvido (diaDoMes : Nat) (slot : Fin 3) : String :=
  ((configurarJobs.get? slot.val).map JobDiario.topico).getD ""

/-- Spec-side definition, following the spec text only (for comparison with
the code): day bucket is day-of-month modulo 3 with remainder 0 mapping to
bucket 3. -/
def specDayBucket (d : Nat) : Nat :=
  if d % 3 = 0 then 3 else d % 3

/-- Spec-side definition, following the spec text only: resolve the correct
answer either as a parseable integer or as a literal equal to one of the
option strings, yielding that option's index. -/
def specResolveCorreta (v : JVal) (opcoes : List String) : Option Int :=
  match pyInt v with
  | some n => some n
  | none =>
    match v with
    | .str s => (opcoes.findIdx? (fun o => o == s)).map Int.ofNat
    | _ => none

/-! ## Recency-cache lemmas (for C4 and C9) -/

/-- Last `k` elements of a list (the Python slice `xs[-k:]` for `k ≥ 1`). -/
def lastN (k : Nat) (xs : List α) : List α := xs.drop (xs.length - k)

lemma lastN_reverse (k : Nat) (xs : List α) : (lastN k xs).reverse = xs.reverse.take k := by
  unfold lastN
  rw [List.reverse_drop]
  refine List.take_eq_take.mpr ?_
  rw [List.length_reverse]
  omega

lemma lastN_of_le {k : Nat} {xs : List α} (h : xs.length ≤ k) : lastN k xs = xs := by
  unfold lastN
  rw [Nat.sub_eq_zero_of_le h, List.drop_zero]

lemma lastN_append_absorb (k : Nat) (xs ys : List α) :
    lastN k (lastN k xs ++ ys) = lastN k (xs ++ ys) := by
  have h1 : ∀ zs : List α, lastN k zs = (zs.reverse.take k).reverse := by
    intro zs
    rw [← lastN_reverse, List.reverse_reverse]
  rw [h1 (lastN k xs ++ ys), h1 (xs ++ ys)]
  rw [List.reverse_append, List.reverse_append, lastN_reverse]
  rw [List.take_append_eq_append_take, List.take_append_eq_append_take, List.take_take]
  rw [inf_eq_left.mpr (Nat.sub_le k ys.reverse.length)]

lemma lastN_length_le (k : Nat) (xs : List α) : (lastN k xs).length ≤ k := by
  unfold lastN
  rw [List.length_drop]
  omega

/-- Invariant of the recency cache: bounded history, duplicate-free
fingerprints, duplicate-free membership set, and the membership set holds
exactly the fingerprints of the history. -/
def BomEstado (limite : Nat) (s : SvcState) : Prop :=
  s.historico.length ≤ limite ∧ (s.historico.map Questao.chave).Nodup ∧
    s.historicoSet.Nodup ∧
    ∀ c, c ∈ s.historicoSet ↔ c ∈ s.historico.map Questao.chave

lemma bomEstado_inicial (limite : Nat) : BomEstado limite estadoInicial := by
  refine ⟨by simp [estadoInicial], by simp [estadoInicial], by simp [estadoInicial],
    by simp [estadoInicial]⟩

lemma foldl_erase_spec (ks : List Chave) :
    ∀ l : List Chave, l.Nodup →
      (ks.foldl (fun t c => t.erase c) l).Nodup ∧
      ∀ c, c ∈ ks.foldl (fun t c => t.erase c) l ↔ c ∈ l ∧ c ∉ ks := by
  induction ks with
  | nil => intro l hl; exact ⟨hl, by simp⟩
  | cons a ks ih =>
    intro l hl
    obtain ⟨hn, hm⟩ := ih (l.erase a) (hl.erase a)
    refine ⟨hn, fun c => ?_⟩
    show c ∈ ks.foldl (fun t c => t.erase c) (l.erase a) ↔ _
    rw [hm c, hl.mem_erase_iff]
    constructor
    · rintro ⟨⟨hne, hcl⟩, hnk⟩
      exact ⟨hcl, by simp [hne, hnk]⟩
    · rintro ⟨hcl, hnk⟩
      simp only [List.mem_cons, not_or] at hnk
      exact ⟨⟨hnk.1, hcl⟩, hnk.2⟩

lemma foldl_erase_sublist (ks : List Chave) :
    ∀ l : List Chave, (ks.foldl (fun t c => t.erase c) l).Sublist l := by
  induction ks with
  | nil => intro l; exact List.Sublist.refl l
  | cons a ks ih => intro l; exact (ih (l.erase a)).trans (List.erase_sublist a l)

lemma registrar_of_mem (limite : Nat) {s : SvcState} {q : Questao}
    (h : q.chave ∈ s.historicoSet) : registrar limite s q = s := by
  unfold registrar
  rw [if_pos h]

/-- Shape of `registrar` on a fresh fingerprint when eviction triggers. -/
lemma registrar_insert_evict (limite : Nat) {s : SvcState} {q : Questao}
    (h : q.chave ∉ s.historicoSet) (hover : limite < (s.historico ++ [q]).length) :
    registrar limite s q =
      ⟨pySliceLast limite (s.historico ++ [q]),
        ((s.historico ++ [q]).take ((s.historico ++ [q]).length - limite)).foldl
          (fun t a => t.erase a.chave) (q.chave :: s.historicoSet)⟩ := by
  unfold registrar
  rw [if_neg h, if_pos hover]

/-- Shape of `registrar` on a fresh fingerprint without eviction. -/
lemma registrar_insert_small (limite : Nat) {s : SvcState} {q : Questao}
    (h : q.chave ∉ s.historicoSet) (hover : ¬ limite < (s.historico ++ [q]).length) :
    registrar limite s q = ⟨s.historico ++ [q], q.chave :: s.historicoSet⟩ := by
  unfold registrar
  rw [if_neg h, if_neg hover]

lemma registrar_historico_insert (limite : Nat) {s : SvcState} {q : Questao}
    (hlim : 1 ≤ limite) (h : q.chave ∉ s.historicoSet) :
    (registrar limite s q).historico = lastN limite (s.historico ++ [q]) := by
  by_cases hover : limite < (s.historico ++ [q]).length
  · rw [registrar_insert_evict limite h hover]
    show pySliceLast limite (s.historico ++ [q]) = _
    unfold pySliceLast lastN
    rw [if_neg (by omega)]
  · rw [registrar_insert_small limite h hover]
    show s.historico ++ [q] = lastN limite (s.historico ++ [q])
    exact (lastN_of_le (by omega)).symm

/-- Registering can only add the registered fingerprint to the membership set. -/
lemma registrar_set_subset (limite : Nat) (s : SvcState) (q : Questao) :
    ∀ c, c ∈ (registrar limite s q).historicoSet → c ∈ s.historicoSet ∨ c = q.chave := by
  intro c hc
  by_cases h : q.chave ∈ s.historicoSet
  · rw [registrar_of_mem limite h] at hc
    exact Or.inl hc
  · by_cases hover : limite < (s.historico ++ [q]).length
    · rw [registrar_insert_evict limite h hover] at hc
      rw [← List.foldl_map Questao.chave (fun (t : List Chave) c => t.erase c)] at hc
      have h2 := (foldl_erase_sublist _ (q.chave :: s.historicoSet)).subset hc
      rcases List.mem_cons.mp h2 with h2 | h2
      · exact Or.inr h2
      · exact Or.inl h2
    · rw [registrar_insert_small limite h hover] at hc
      rcases List.mem_cons.mp hc with hc | hc
      · exact Or.inr hc
      · exact Or.inl hc

/-- `_registrar_no_historico` preserves the cache invariant (positive ceiling). -/
lemma registrar_bom (limite : Nat) (hlim : 1 ≤ limite) {s : SvcState}
    (hs : BomEstado limite s) (q : Questao) : BomEstado limite (registrar limite s q) := by
  obtain ⟨hlen, hnd, hsetnd, hiff⟩ := hs
  by_cases h : q.chave ∈ s.historicoSet
  · rw [registrar_of_mem limite h]
    exact ⟨hlen, hnd, hsetnd, hiff⟩
  · have hfresh : q.chave ∉ s.historico.map Questao.chave := fun hmem => h ((hiff _).mpr hmem)
    have hndq : ((s.historico ++ [q]).map Questao.chave).Nodup := by
      rw [List.map_append, List.nodup_append]
      refine ⟨hnd, by simp, ?_⟩
      intro c hc1 hc2
      simp only [List.map_cons, List.map_nil, List.mem_singleton] at hc2
      subst hc2
      exact hfresh hc1
    have hmem_hist : ∀ c, c ∈ q.chave :: s.historicoSet ↔
        c ∈ (s.historico ++ [q]).map Questao.chave := by
      intro c
      rw [List.map_append]
      simp only [List.mem_cons, List.mem_append, List.map_cons, List.map_nil,
        List.mem_singleton, hiff c]
      tauto
    by_cases hover : limite < (s.historico ++ [q]).length
    · rw [registrar_insert_evict limite h hover]
      set hist := s.historico ++ [q] with hhist
      set k := hist.length - limite with hk
      have hfold := List.foldl_map Questao.chave (fun (t : List Chave) c => t.erase c)
        (hist.take k) (q.chave :: s.historicoSet)
      have hsetnd2 : (q.chave :: s.historicoSet).Nodup := List.nodup_cons.mpr ⟨h, hsetnd⟩
      obtain ⟨hernd, hermem⟩ := foldl_erase_spec ((hist.take k).map Questao.chave)
        (q.chave :: s.historicoSet) hsetnd2
      have hsplit : (hist.take k).map Questao.chave ++ (hist.drop k).map Questao.chave
          = hist.map Questao.chave := by
        rw [List.map_take, List.map_drop, List.take_append_drop]
      have hdisj : ((hist.take k).map Questao.chave).Disjoint
          ((hist.drop k).map Questao.chave) := by
        have h3 := hndq
        rw [← hsplit, List.nodup_append] at h3
        exact h3.2.2
      have hk1 : pySliceLast limite hist = hist.drop k := by
        unfold pySliceLast
        rw [if_neg (by omega)]
      refine ⟨?_, ?_, ?_, ?_⟩
      · show (pySliceLast limite hist).length ≤ limite
        rw [hk1, List.length_drop]
        omega
      · show ((pySliceLast limite hist).map Questao.chave).Nodup
        rw [hk1, List.map_drop]
        exact (List.drop_sublist _ _).nodup hndq
      · show ((hist.take k).foldl (fun t a => t.erase a.chave)
          (q.chave :: s.historicoSet)).Nodup
        rw [← hfold]
        exact hernd
      · intro c
        show c ∈ (hist.take k).foldl (fun t a => t.erase a.chave) (q.chave :: s.historicoSet)
          ↔ c ∈ (pySliceLast limite hist).map Questao.chave
        rw [← hfold, hermem c, hmem_hist c, hk1]
        constructor
        · rintro ⟨hin, hout⟩
          rw [← hsplit] at hin
          rcases List.mem_append.mp hin with h1 | h1
          · exact absurd h1 hout
          · exact h1
        · intro hin
          refine ⟨by rw [← hsplit]; exact List.mem_append.mpr (Or.inr hin), ?_⟩
          intro htk
          exact hdisj htk hin
    · rw [registrar_insert_small limite h hover]
      refine ⟨?_, hndq, List.nodup_cons.mpr ⟨h, hsetnd⟩, hmem_hist⟩
      show (s.historico ++ [q]).length ≤ limite
      omega

lemma bom_foldl (limite : Nat) (hlim : 1 ≤ limite) :
    ∀ (qs : List Questao) (s : SvcState), BomEstado limite s →
      BomEstado limite (qs.foldl (registrar limite) s) := by
  intro qs
  induction qs with
  | nil => intro s hs; exact hs
  | cons q qs ih => intro s hs; exact ih _ (registrar_bom limite hlim hs q)

/-- State of the service after a sequence of registrations from startup. -/
def estadoApos (limite : Nat) (qs : List Questao) : SvcState :=
  qs.foldl (registrar limite) estadoInicial

/-- Registering a fresh, duplicate-free sequence of questions leaves the
history holding exactly the last `limite` entries of the old history followed
by the new questions (FIFO eviction of the oldest). -/
lemma foldl_registrar_lastN (limite : Nat) (hlim : 1 ≤ limite) :
    ∀ (qs : List Questao) (s : SvcState), (qs.map Questao.chave).Nodup →
      (∀ q ∈ qs, q.chave ∉ s.historicoSet) → s.historico.length ≤ limite →
      (qs.foldl (registrar limite) s).historico = lastN limite (s.historico ++ qs) := by
  intro qs
  induction qs with
  | nil =>
    intro s _ _ hsl
    rw [List.append_nil, List.foldl_nil]
    exact (lastN_of_le hsl).symm
  | cons q qs ih =>
    intro s hnd hfresh hsl
    have hq : q.chave ∉ s.historicoSet := hfresh q (List.mem_cons_self q qs)
    have h1 : (registrar limite s q).historico = lastN limite (s.historico ++ [q]) :=
      registrar_historico_insert limite hlim hq
    have hnd2 : (qs.map Questao.chave).Nodup := by
      rw [List.map_cons, List.nodup_cons] at hnd
      exact hnd.2
    have hqout : q.chave ∉ qs.map Questao.chave := by
      rw [List.map_cons, List.nodup_cons] at hnd
      exact hnd.1
    have hfresh2 : ∀ p ∈ qs, p.chave ∉ (registrar limite s q).historicoSet := by
      intro p hp hmem
      rcases registrar_set_subset limite s q _ hmem with h2 | h2
      · exact hfresh p (List.mem_cons_of_mem q hp) h2
      · exact hqout (h2 ▸ List.mem_map_of_mem Questao.chave hp)
    have hsl2 : (registrar limite s q).historico.length ≤ limite := by
      rw [h1]
      exact lastN_length_le limite _
    rw [List.foldl_cons, ih (registrar limite s q) hnd2 hfresh2 hsl2, h1,
      lastN_append_absorb, List.append_assoc]
    rfl

/-! ## Claim C4: recency-cache invariant -/

/-- C4: across every sequence of `_registrar_no_historico` operations from
the initial state (with a positive configured ceiling), the history size
never exceeds `historico_limite`, the membership set `_historico_set` holds
exactly the fingerprints of the sequence `_historico`, and any further
registration either is a no-op (fingerprint already present) or keeps the
history a suffix of the old history extended by the new entry — i.e. the
oldest-registered entries are evicted first. -/
theorem c4_cache_limitada_fifo (limite : Nat) (hlim : 0 < limite) (qs : List Questao) :
    ((estadoApos limite qs).historico.length ≤ limite ∧
      ∀ c, c ∈ (estadoApos limite qs).historicoSet ↔
        c ∈ (estadoApos limite qs).historico.map Questao.chave) ∧
    ∀ q : Questao, registrar limite (estadoApos limite qs) q = estadoApos limite qs ∨
      (registrar limite (estadoApos limite qs) q).historico.IsSuffix
        ((estadoApos limite qs).historico ++ [q]) := by
  have hbom : BomEstado limite (estadoApos limite qs) :=
    bom_foldl limite hlim qs estadoInicial (bomEstado_inicial limite)
  obtain ⟨h1, _, _, h4⟩ := hbom
  refine ⟨⟨h1, h4⟩, ?_⟩
  intro q
  by_cases h : q.chave ∈ (estadoApos limite qs).historicoSet
  · exact Or.inl (registrar_of_mem limite h)
  · refine Or.inr ?_
    rw [registrar_historico_insert limite hlim h]
    unfold lastN
    exact List.drop_suffix _ _

theorem c4_cache_limitada_fifo_witness :
    (0 < 500) ∧
    (((estadoApos 500 []).historico.length ≤ 500 ∧
      ∀ c, c ∈ (estadoApos 500 []).historicoSet ↔
        c ∈ (estadoApos 500 []).historico.map Questao.chave) ∧
    ∀ q : Questao, registrar 500 (estadoApos 500 []) q = estadoApos 500 [] ∨
      (registrar 500 (estadoApos 500 []) q).historico.IsSuffix
        ((estadoApos 500 []).historico ++ [q])) :=
  ⟨by decide, c4_cache_limitada_fifo 500 (by decide) []⟩

/-! ## Characterisation of the batch-assembly loops (for C1, C9) -/

/-- The inner `for` loop appends some fresh block of questions to the batch,
registers exactly that block, keeps the batch fingerprints duplicate-free and
never grows the batch beyond `qtd`. -/
lemma addAll_spec (qtd : Nat) (evitar : Bool) (limite : Nat) :
    ∀ (qs lote : List Questao) (vistos : List Chave) (s : SvcState),
      (∀ p ∈ lote, p.chave ∈ vistos) → (lote.map Questao.chave).Nodup →
      lote.length < qtd →
      ∃ Δ v2,
        addAll qtd evitar limite qs lote vistos s
          = (lote ++ Δ, v2, Δ.foldl (registrar limite) s) ∧
        (∀ p ∈ lote ++ Δ, p.chave ∈ v2) ∧ (∀ c ∈ vistos, c ∈ v2) ∧
        ((lote ++ Δ).map Questao.chave).Nodup ∧ (lote ++ Δ).length ≤ qtd := by
  intro qs
  induction qs with
  | nil =>
    intro lote vistos s hv hnd hlt
    exact ⟨[], vistos, by simp [addAll], by simpa using hv, fun c hc => hc,
      by simpa using hnd, by simpa using hlt.le⟩
  | cons q qs ih =>
    intro lote vistos s hv hnd hlt
    by_cases h1 : q.chave ∈ vistos
    · obtain ⟨Δ, v2, heq, hall, hsub, hnd2, hlen2⟩ := ih lote vistos s hv hnd hlt
      exact ⟨Δ, v2, by rw [addAll, if_pos h1]; exact heq, hall, hsub, hnd2, hlen2⟩
    · by_cases h2 : evitar ∧ q.chave ∈ s.historicoSet
      · obtain ⟨Δ, v2, heq, hall, hsub, hnd2, hlen2⟩ := ih lote vistos s hv hnd hlt
        exact ⟨Δ, v2, by rw [addAll, if_neg h1, if_pos h2]; exact heq, hall, hsub, hnd2, hlen2⟩
      · have hqfresh : q.chave ∉ lote.map Questao.chave := fun hc => by
          obtain ⟨p, hp, hpc⟩ := List.mem_map.mp hc
          exact h1 (hpc ▸ hv p hp)
        have hnd2 : ((lote ++ [q]).map Questao.chave).Nodup := by
          rw [List.map_append, List.nodup_append]
          refine ⟨hnd, by simp, ?_⟩
          intro c hc1 hc2
          simp only [List.map_cons, List.map_nil, List.mem_singleton] at hc2
          subst hc2
          exact hqfresh hc1
        have hv2 : ∀ p ∈ lote ++ [q], p.chave ∈ q.chave :: vistos := by
          intro p hp
          rcases List.mem_append.mp hp with hp | hp
          · exact List.mem_cons_of_mem _ (hv p hp)
          · simp only [List.mem_singleton] at hp
            subst hp
            exact List.mem_cons_self _ _
        by_cases h3 : qtd ≤ (lote ++ [q]).length
        · refine ⟨[q], q.chave :: vistos, ?_, hv2, fun c hc => List.mem_cons_of_mem _ hc,
            hnd2, by simp only [List.length_append, List.length_cons, List.length_nil]; omega⟩
          rw [addAll, if_neg h1, if_neg h2]
          simp only [h3, if_true]
          rfl
        · obtain ⟨Δ, v2, heq, hall, hsub, hnd3, hlen3⟩ :=
            ih (lote ++ [q]) (q.chave :: vistos) (registrar limite s q) hv2 hnd2 (by omega)
          refine ⟨q :: Δ, v2, ?_, ?_, ?_, ?_, ?_⟩
          · rw [addAll, if_neg h1, if_neg h2]
            simp only [h3, if_false]
            rw [heq, List.foldl_cons]
            simp [List.append_assoc]
          · simpa [List.append_assoc] using hall
          · exact fun c hc => hsub c (List.mem_cons_of_mem _ hc)
          · simpa [List.append_assoc] using hnd3
          · simpa [List.append_assoc] using hlen3

/-- The provider loop of `buscar_lote` appends some block of questions to the
batch, registers exactly that block into the cache, keeps the batch
fingerprints duplicate-free and never grows the batch beyond `qtd`. -/
lemma loteLoop_spec (O : Oracle) (limite qtd : Nat) (topico : Option String) (evitar : Bool) :
    ∀ (fuel t : Nat) (lote : List Questao) (vistos : List Chave) (s : SvcState),
      (∀ p ∈ lote, p.chave ∈ vistos) → (lote.map Questao.chave).Nodup →
      lote.length ≤ qtd →
      ∃ Δ, loteLoop O limite qtd topico evitar fuel t lote vistos s
          = (lote ++ Δ, Δ.foldl (registrar limite) s) ∧
        ((lote ++ Δ).map Questao.chave).Nodup ∧ (lote ++ Δ).length ≤ qtd := by
  intro fuel
  induction fuel with
  | zero =>
    intro t lote vistos s _ hnd hle
    exact ⟨[], by simp [loteLoop], by simpa using hnd, by simpa using hle⟩
  | succ fuel ih =>
    intro t lote vistos s hv hnd hle
    by_cases h1 : qtd ≤ lote.length
    · exact ⟨[], by rw [loteLoop, if_pos h1]; simp, by simpa using hnd, by simpa using hle⟩
    · match hapi : O.api (t + 1) with
      | none =>
        exact ⟨[], by rw [loteLoop, if_neg h1, hapi]; simp, by simpa using hnd,
          by simpa using hle⟩
      | some dados =>
        by_cases htr : pyTruthy dados
        · by_cases hemp : (normalizarResposta dados topico).isEmpty
          · obtain ⟨Δ, heq, hnd2, hle2⟩ := ih (t + 1) lote vistos s hv hnd hle
            refine ⟨Δ, ?_, hnd2, hle2⟩
            rw [loteLoop, if_neg h1, hapi]
            simp only [htr, if_true, hemp, if_true]
            exact heq
          · obtain ⟨Δ1, v2, haeq, hall, _, hnd2, hle2⟩ :=
              addAll_spec qtd evitar limite (normalizarResposta dados topico) lote vistos s
                hv hnd (by omega)
            obtain ⟨Δ2, heq, hnd3, hle3⟩ :=
              ih (t + 1) (lote ++ Δ1) v2 (Δ1.foldl (registrar limite) s) hall hnd2 hle2
            refine ⟨Δ1 ++ Δ2, ?_, by rwa [← List.append_assoc], by rwa [← List.append_assoc]⟩
            have hemp2 : (normalizarResposta dados topico).isEmpty = false := by
              rwa [Bool.not_eq_true] at hemp
            rw [loteLoop, if_neg h1, hapi]
            simp only [htr, if_true, hemp2, Bool.false_eq_true, if_false]
            rw [haeq]
            rw [heq, List.append_assoc, List.foldl_append]
        · exact ⟨[], by rw [loteLoop, if_neg h1, hapi]; simp [htr], by simpa using hnd,
            by simpa using hle⟩

/-- The fallback loop, when it terminates, appends some block to the batch,
registers exactly that block, keeps fingerprints duplicate-free and stays
within `qtd`. -/
lemma fbLoop_spec (O : Oracle) (limite qtd : Nat) (base : List Questao) :
    ∀ (fuel step : Nat) (lote : List Questao) (vistos : List Chave) (s : SvcState)
      (res : List Questao) (s2 : SvcState),
      (∀ p ∈ lote, p.chave ∈ vistos) → (lote.map Questao.chave).Nodup →
      lote.length ≤ qtd →
      fbLoop O limite qtd base fuel step lote vistos s = some (res, s2) →
      ∃ Δ, res = lote ++ Δ ∧ s2 = Δ.foldl (registrar limite) s ∧
        (res.map Questao.chave).Nodup ∧ res.length ≤ qtd := by
  intro fuel
  induction fuel with
  | zero =>
    intro step lote vistos s res s2 _ hnd hle hres
    rw [fbLoop] at hres
    by_cases h1 : qtd ≤ lote.length ∨ base = []
    · rw [if_pos h1] at hres
      obtain ⟨rfl, rfl⟩ : lote = res ∧ s = s2 := by
        have h2 := Option.some.inj hres
        exact ⟨congrArg Prod.fst h2, congrArg Prod.snd h2⟩
      exact ⟨[], by simp, by simp, by simpa using hnd, by simpa using hle⟩
    · rw [if_neg h1] at hres
      exact absurd hres (by simp)
  | succ fuel ih =>
    intro step lote vistos s res s2 hv hnd hle hres
    rw [fbLoop] at hres
    by_cases h1 : qtd ≤ lote.length ∨ base = []
    · rw [if_pos h1] at hres
      obtain ⟨rfl, rfl⟩ : lote = res ∧ s = s2 := by
        have h2 := Option.some.inj hres
        exact ⟨congrArg Prod.fst h2, congrArg Prod.snd h2⟩
      exact ⟨[], by simp, by simp, by simpa using hnd, by simpa using hle⟩
    · rw [if_neg h1] at hres
      set q := base.getD (O.pick step % base.length) default with hq
      by_cases h2 : q.chave ∈ vistos
      · rw [if_pos h2] at hres
        exact ih (step + 1) lote vistos s res s2 hv hnd hle hres
      · rw [if_neg h2] at hres
        have hqfresh : q.chave ∉ lote.map Questao.chave := fun hc => by
          obtain ⟨p, hp, hpc⟩ := List.mem_map.mp hc
          exact h2 (hpc ▸ hv p hp)
        have hnd2 : ((lote ++ [q]).map Questao.chave).Nodup := by
          rw [List.map_append, List.nodup_append]
          refine ⟨hnd, by simp, ?_⟩
          intro c hc1 hc2
          simp only [List.map_cons, List.map_nil, List.mem_singleton] at hc2
          subst hc2
          exact hqfresh hc1
        have hv2 : ∀ p ∈ lote ++ [q], p.chave ∈ q.chave :: vistos := by
          intro p hp
          rcases List.mem_append.mp hp with hp | hp
          · exact List.mem_cons_of_mem _ (hv p hp)
          · simp only [List.mem_singleton] at hp
            subst hp
            exact List.mem_cons_self _ _
        obtain ⟨Δ, hres2, hs2, hnd3, hle3⟩ :=
          ih (step + 1) (lote ++ [q]) (q.chave :: vistos) (registrar limite s q) res s2
            hv2 hnd2
            (by
              have h4 : ¬ qtd ≤ lote.length := fun hc => h1 (Or.inl hc)
              simp only [List.length_append, List.length_cons, List.length_nil]
              omega)
            hres
        refine ⟨q :: Δ, ?_, ?_, hnd3, hle3⟩
        · rw [hres2]
          simp [List.append_assoc]
        · rw [hs2, List.foldl_cons]

/-! ## Claim C1: batch size and pairwise-distinct fingerprints -/

/-- C1: whenever `buscar_lote(qtd, topico, evitar_repetidas)` with `qtd > 0`
returns a list, that list has length at most `qtd` and pairwise-distinct
fingerprints, on both the provider path and the fallback path, for every
prior cache state (`random.shuffle` is assumed to permute its argument). -/
theorem c1_lote_tamanho_e_dedup (O : Oracle) (limite fuelFB : Nat) (qtd : Int)
    (topico : Option String) (evitar : Bool) (s0 : SvcState)
    (res : List Questao) (s1 : SvcState)
    (hq : 0 < qtd)
    (hperm : ∀ l : List Questao, (O.shuffle l).Perm l)
    (hres : buscarLote O limite fuelFB qtd topico evitar s0 = some (res, s1)) :
    res.length ≤ qtd.toNat ∧ (res.map Questao.chave).Nodup := by
  have hq0 : ¬ qtd ≤ 0 := by omega
  rw [buscarLote, if_neg hq0] at hres
  obtain ⟨Δ, heq, hnd, hle⟩ := loteLoop_spec O limite qtd.toNat topico evitar
    (qtd.toNat * 4) 0 [] [] s0 (by simp) (by simp) (by simp)
  rw [heq] at hres
  simp only [List.nil_append] at hres hnd hle
  by_cases hd : Δ = []
  · rw [if_pos hd, buscarLoteFallback] at hres
    obtain ⟨Δ2, hres2, hs2, hnd2, hle2⟩ := fbLoop_spec O limite qtd.toNat
      ((fallbackBase topico).map fbToQuestao) fuelFB 0 [] [] _ res s1
      (by simp) (by simp) (by simp) hres
    exact ⟨hle2, hnd2⟩
  · rw [if_neg hd] at hres
    have h2 := Option.some.inj hres
    have hresEq : res = (O.shuffle Δ).take qtd.toNat := (congrArg Prod.fst h2).symm
    subst hresEq
    constructor
    · rw [List.length_take]
      omega
    · rw [List.map_take]
      refine (List.take_sublist _ _).nodup ?_
      exact (((hperm Δ).map Questao.chave).symm).nodup hnd

def oracleVazio : Oracle := ⟨fun _ => none, fun _ => 0, id⟩

def jItemW : JVal :=
  .obj [("pergunta", .str "W?"), ("opcoes", .arr [.str "a", .str "b"]), ("correta", .int 0)]

def oracleUmItem : Oracle := ⟨fun n => if n = 1 then some jItemW else none, fun _ => 0, id⟩

def questaoW : Questao := ⟨"W?", ["a", "b"], 0, "", "Geral"⟩

def svcW : SvcState := ⟨[questaoW], [("W?", 0)]⟩

theorem c1_lote_tamanho_e_dedup_witness :
    (0 < (1 : Int)) ∧
    ([questaoW].length ≤ (1 : Int).toNat ∧ ([questaoW].map Questao.chave).Nodup) :=
  ⟨by decide,
    c1_lote_tamanho_e_dedup oracleUmItem 500 0 1 none true estadoInicial [questaoW] svcW
      (by decide) (fun l => List.Perm.refl l) (by decide)⟩

/-! ## Claim C10: non-positive `qtd` is an identity-free early return -/

/-- C10: for every `qtd ≤ 0` and every topic, `buscar_lote` returns the empty
list immediately, with the recency cache unchanged — and since the result is
the same for every oracle, in particular no provider response is consulted. -/
theorem c10_qtd_nao_positivo (O : Oracle) (limite fuelFB : Nat) (qtd : Int)
    (topico : Option String) (evitar : Bool) (s : SvcState) (hq : qtd ≤ 0) :
    buscarLote O limite fuelFB qtd topico evitar s = some ([], s) := by
  rw [buscarLote, if_pos hq]

theorem c10_qtd_nao_positivo_witness :
    ((0 : Int) ≤ 0) ∧
    buscarLote oracleVazio 500 0 0 none true estadoInicial = some ([], estadoInicial) :=
  ⟨by decide, c10_qtd_nao_positivo oracleVazio 500 0 0 none true estadoInicial (by decide)⟩

/-! ## Claim C9: registration of returned questions in the cache -/

lemma mem_lastN_append {k : Nat} {zs xs : List α} {q : α} (h : zs.length ≤ k) (hq : q ∈ zs) :
    q ∈ lastN k (xs ++ zs) := by
  unfold lastN
  rw [List.drop_append_eq_append_drop]
  refine List.mem_append.mpr (Or.inr ?_)
  have h0 : (xs ++ zs).length - k - xs.length = 0 := by
    rw [List.length_append]
    omega
  rw [h0, List.drop_zero]
  exact hq

/-- C9 (amended): every question in the returned batch was passed to
`_registrar_no_historico` during the call; provided no returned fingerprint
was already cached before the call and at most `historico_limite` questions
are returned, every returned question's fingerprint is in the membership set
immediately after the call. -/
theorem c9_lote_registrado (O : Oracle) (limite fuelFB : Nat) (qtd : Int)
    (topico : Option String) (evitar : Bool) (s0 : SvcState)
    (res : List Questao) (s1 : SvcState)
    (hbom : BomEstado limite s0)
    (hperm : ∀ l : List Questao, (O.shuffle l).Perm l)
    (hres : buscarLote O limite fuelFB qtd topico evitar s0 = some (res, s1))
    (hfresh : ∀ q ∈ res, q.chave ∉ s0.historicoSet)
    (hlen : res.length ≤ limite) :
    ∀ q ∈ res, q.chave ∈ s1.historicoSet := by
  by_cases hempty : res = []
  · intro q hq
    rw [hempty] at hq
    simp at hq
  have hlim : 1 ≤ limite := by
    have h0 : 0 < res.length := List.length_pos.mpr hempty
    omega
  by_cases hq0 : qtd ≤ 0
  · rw [buscarLote, if_pos hq0] at hres
    have h2 := Option.some.inj hres
    exact absurd (congrArg Prod.fst h2).symm hempty
  rw [buscarLote, if_neg hq0] at hres
  obtain ⟨Δ, heq, hnd, hle⟩ := loteLoop_spec O limite qtd.toNat topico evitar
    (qtd.toNat * 4) 0 [] [] s0 (by simp) (by simp) (by simp)
  rw [heq] at hres
  simp only [List.nil_append] at hres hnd hle
  by_cases hd : Δ = []
  · subst hd
    simp only [List.foldl_nil] at hres
    rw [if_pos trivial, buscarLoteFallback] at hres
    obtain ⟨Δ2, hres2, hs2, hnd2, hle2⟩ := fbLoop_spec O limite qtd.toNat
      ((fallbackBase topico).map fbToQuestao) fuelFB 0 [] [] s0 res s1
      (by simp) (by simp) (by simp) hres
    simp only [List.nil_append] at hres2
    subst hres2
    have hhist : s1.historico = lastN limite (s0.historico ++ res) := by
      rw [hs2]
      exact foldl_registrar_lastN limite hlim res s0 hnd2 hfresh hbom.1
    have hbom1 : BomEstado limite s1 := by
      rw [hs2]
      exact bom_foldl limite hlim res s0 hbom
    intro q hq
    have hqh : q ∈ s1.historico := by
      rw [hhist]
      exact mem_lastN_append hlen hq
    exact (hbom1.2.2.2 _).mpr (List.mem_map_of_mem Questao.chave hqh)
  · rw [if_neg hd] at hres
    have h2 := Option.some.inj hres
    have hresEq : res = (O.shuffle Δ).take qtd.toNat := (congrArg Prod.fst h2).symm
    have hs1 : s1 = Δ.foldl (registrar limite) s0 := (congrArg Prod.snd h2).symm
    have hshlen : (O.shuffle Δ).length = Δ.length := (hperm Δ).length_eq
    have hresSh : res = O.shuffle Δ := by
      rw [hresEq]
      exact List.take_of_length_le (by omega)
    have hpermRes : res.Perm Δ := hresSh ▸ hperm Δ
    have hfreshΔ : ∀ q ∈ Δ, q.chave ∉ s0.historicoSet := by
      intro q hq
      exact hfresh q (hpermRes.mem_iff.mpr hq)
    have hlenΔ : Δ.length ≤ limite := by
      rw [← hpermRes.length_eq]
      exact hlen
    have hhist : s1.historico = lastN limite (s0.historico ++ Δ) := by
      rw [hs1]
      exact foldl_registrar_lastN limite hlim Δ s0 hnd hfreshΔ hbom.1
    have hbom1 : BomEstado limite s1 := by
      rw [hs1]
      exact bom_foldl limite hlim Δ s0 hbom
    intro q hq
    have hqh : q ∈ s1.historico := by
      rw [hhist]
      exact mem_lastN_append hlenΔ (hpermRes.mem_iff.mp hq)
    exact (hbom1.2.2.2 _).mpr (List.mem_map_of_mem Questao.chave hqh)

theorem c9_lote_registrado_witness :
    BomEstado 500 estadoInicial ∧
    (∀ q ∈ [questaoW], q.chave ∉ estadoInicial.historicoSet) ∧
    [questaoW].length ≤ 500 ∧
    (∀ q ∈ [questaoW], q.chave ∈ svcW.historicoSet) :=
  ⟨bomEstado_inicial 500, by decide, by decide,
    c9_lote_registrado oracleUmItem 500 0 1 none true estadoInicial [questaoW] svcW
      (bomEstado_inicial 500) (fun l => List.Perm.refl l) (by decide) (by decide) (by decide)⟩

def jItemA : JVal :=
  .obj [("pergunta", .str "A?"), ("opcoes", .arr [.str "x", .str "y"]), ("correta", .int 0)]

def jItemB : JVal :=
  .obj [("pergunta", .str "B?"), ("opcoes", .arr [.str "x", .str "y"]), ("correta", .int 0)]

def oracleDoisItens : Oracle :=
  ⟨fun n => if n = 1 then some jItemA else if n = 2 then some jItemB else none, fun _ => 0, id⟩

def questaoA : Questao := ⟨"A?", ["x", "y"], 0, "", "Geral"⟩

def questaoB : Questao := ⟨"B?", ["x", "y"], 0, "", "Geral"⟩

def svcAposAB : SvcState := ⟨[questaoB], [("B?", 0)]⟩

/-- C9 counterexample: with `historico_limite = 1`, a provider call delivering
two distinct questions makes `buscar_lote(2)` return both, yet the second
registration evicts the first question's fingerprint from the membership set
before the call returns — so not every returned fingerprint is cached on
return, refuting the claim as stated. -/
theorem c9_counterexample :
    buscarLote oracleDoisItens 1 0 2 none true estadoInicial
      = some ([questaoA, questaoB], svcAposAB) ∧
    ¬ (∀ q ∈ [questaoA, questaoB], q.chave ∈ svcAposAB.historicoSet) := by
  constructor
  · decide
  · decide

/-! ## Claims C2 and C3: divergence of the fallback loop -/

lemma nodup_length_le_dedup {l m : List Chave} (hn : l.Nodup) (hsub : ∀ x ∈ l, x ∈ m) :
    l.length ≤ m.dedup.length := by
  have h1 : l.toFinset.card = l.length := List.toFinset_card_of_nodup hn
  have h2 : l.toFinset ⊆ m.toFinset := by
    intro x hx
    rw [List.mem_toFinset] at hx ⊢
    exact hsub x hx
  have h3 := Finset.card_le_card h2
  rw [h1, List.card_toFinset] at h3
  exact h3

/-- The `while len(lote) < qtd and base` loop of `_buscar_lote_fallback`
never terminates when the base is non-empty but holds fewer distinct
fingerprints than `qtd`: it neither accepts a repeated fingerprint nor ever
removes anything from `base`, so no fuel bound is ever enough. -/
lemma fbLoop_stuck (O : Oracle) (limite qtd : Nat) (base : List Questao)
    (hbase : base ≠ [])
    (hK : (base.map Questao.chave).dedup.length < qtd) :
    ∀ (fuel step : Nat) (lote : List Questao) (vistos : List Chave) (s : SvcState),
      (∀ p ∈ lote, p.chave ∈ vistos) → (lote.map Questao.chave).Nodup →
      (∀ p ∈ lote, p ∈ base) →
      fbLoop O limite qtd base fuel step lote vistos s = none := by
  have hguard : ∀ lote : List Questao, (lote.map Questao.chave).Nodup →
      (∀ p ∈ lote, p ∈ base) → ¬ (qtd ≤ lote.length ∨ base = []) := by
    intro lote hnd hsub h
    rcases h with h | h
    · have hlelen : lote.length ≤ (base.map Questao.chave).dedup.length := by
        have h2 := nodup_length_le_dedup hnd (fun x hx => by
          obtain ⟨p, hp, hpc⟩ := List.mem_map.mp hx
          exact hpc ▸ List.mem_map_of_mem Questao.chave (hsub p hp))
        rwa [List.length_map] at h2
      omega
    · exact hbase h
  intro fuel
  induction fuel with
  | zero =>
    intro step lote vistos s hv hnd hsub
    rw [fbLoop, if_neg (hguard lote hnd hsub)]
  | succ fuel ih =>
    intro step lote vistos s hv hnd hsub
    rw [fbLoop, if_neg (hguard lote hnd hsub)]
    have hlen0 : 0 < base.length := List.length_pos.mpr hbase
    have hqbase : base.getD (O.pick step % base.length) default ∈ base := by
      rw [List.getD_eq_getElem base default (Nat.mod_lt _ hlen0)]
      exact List.getElem_mem _
    set q := base.getD (O.pick step % base.length) default with hqdef
    by_cases h2 : q.chave ∈ vistos
    · rw [if_pos h2]
      exact ih (step + 1) lote vistos s hv hnd hsub
    · rw [if_neg h2]
      have hqfresh : q.chave ∉ lote.map Questao.chave := fun hc => by
        obtain ⟨p, hp, hpc⟩ := List.mem_map.mp hc
        exact h2 (hpc ▸ hv p hp)
      refine ih (step + 1) (lote ++ [q]) (q.chave :: vistos) (registrar limite s q) ?_ ?_ ?_
      · intro p hp
        rcases List.mem_append.mp hp with hp | hp
        · exact List.mem_cons_of_mem _ (hv p hp)
        · simp only [List.mem_singleton] at hp
          subst hp
          exact List.mem_cons_self _ _
      · rw [List.map_append, List.nodup_append]
        refine ⟨hnd, by simp, ?_⟩
        intro c hc1 hc2
        simp only [List.map_cons, List.map_nil, List.mem_singleton] at hc2
        subst hc2
        exact hqfresh hc1
      · intro p hp
        rcases List.mem_append.mp hp with hp | hp
        · exact hsub p hp
        · simp only [List.mem_singleton] at hp
          subst hp
          exact hqbase

/-- C3 (code bug): with the provider totally unavailable and `qtd = 3` on the
default configuration, `buscar_lote` never returns — the fallback loop
spins forever because the two-entry bank cannot supply three distinct
fingerprints and repeats are never accepted. This holds for every fuel
bound, every `random.choice` behaviour and every `random.shuffle`,
refuting totality of `buscar_lote`. -/
theorem c3_buscar_lote_diverge :
    ∀ (fuel : Nat) (pick : Nat → Nat) (shuffle : List Questao → List Questao),
      buscarLote ⟨fun _ => none, pick, shuffle⟩ 500 fuel 3 none true estadoInicial = none := by
  intro fuel pick shuffle
  exact fbLoop_stuck ⟨fun _ => none, pick, shuffle⟩ 500 3
    ((fallbackBase none).map fbToQuestao) (by decide) (by decide)
    fuel 0 [] [] estadoInicial (by simp) (by simp) (by simp)

/-- C2 (code bug): for the topic "Raciocínio Lógico" — present in the
fallback bank — and `qtd = 2`, a provider outage makes `buscar_lote` spin
forever in `_buscar_lote_fallback` instead of returning 2 questions with a
repeat: the topic-filtered bank has a single entry and the loop never
accepts a repeated fingerprint. -/
theorem c2_fallback_diverge :
    ∀ (fuel : Nat) (pick : Nat → Nat) (shuffle : List Questao → List Questao),
      buscarLote ⟨fun _ => none, pick, shuffle⟩ 500 fuel 2 (some "Raciocínio Lógico") true
        estadoInicial = none := by
  intro fuel pick shuffle
  exact fbLoop_stuck ⟨fun _ => none, pick, shuffle⟩ 500 2
    ((fallbackBase (some "Raciocínio Lógico")).map fbToQuestao) (by decide) (by decide)
    fuel 0 [] [] estadoInicial (by simp) (by simp) (by simp)

/-! ## Claim C5: retry exhaustion and backoff of `_chamar_api_bruto` -/

lemma apiLoop_all_fail (provider : Nat → Option JVal) (b : ℚ)
    (hfail : ∀ i, provider i = none) :
    ∀ (m t : Nat), 1 ≤ t →
      apiLoop provider b t m
        = (none, m, (List.range (m - 1)).map fun i => b * 2 ^ (t - 1 + i)) := by
  intro m
  induction m with
  | zero =>
    intro t ht
    rw [apiLoop]
    simp
  | succ m ih =>
    intro t ht
    rw [apiLoop, hfail t]
    by_cases hm : m = 0
    · subst hm
      simp
    · rw [if_neg hm]
      rw [ih (t + 1) (by omega)]
      obtain ⟨m2, rfl⟩ : ∃ m2, m = m2 + 1 := ⟨m - 1, by omega⟩
      simp only [Nat.add_sub_cancel, List.range_succ_eq_map, List.map_cons, List.map_map]
      refine congrArg (fun l => ((none : Option JVal), m2 + 1 + 1, l)) ?_
      refine congrArg₂ (fun (a : ℚ) (l : List ℚ) => a :: l) (by rw [Nat.add_zero]) ?_
      refine List.map_congr_left ?_
      intro a _
      show b * 2 ^ (t + 1 - 1 + a) = b * 2 ^ (t - 1 + (a + 1))
      rw [show t + 1 - 1 + a = t - 1 + (a + 1) by omega]

lemma apiLoop_first_success (provider : Nat → Option JVal) (b : ℚ) :
    ∀ (j m t : Nat) (v : JVal), j < m → 1 ≤ t →
      (∀ i, i < j → provider (t + i) = none) → provider (t + j) = some v →
      apiLoop provider b t m
        = (some v, j + 1, (List.range j).map fun i => b * 2 ^ (t - 1 + i)) := by
  intro j
  induction j with
  | zero =>
    intro m t v hjm ht hfail hsucc
    obtain ⟨m2, rfl⟩ : ∃ m2, m = m2 + 1 := ⟨m - 1, by omega⟩
    rw [apiLoop, (by simpa using hsucc : provider t = some v)]
    simp
  | succ j ih =>
    intro m t v hjm ht hfail hsucc
    obtain ⟨m2, rfl⟩ : ∃ m2, m = m2 + 1 := ⟨m - 1, by omega⟩
    rw [apiLoop, (by simpa using hfail 0 (by omega) : provider t = none)]
    rw [if_neg (by omega : ¬ m2 = 0)]
    rw [ih m2 (t + 1) v (by omega) (by omega)
      (fun i hi => by
        have h2 := hfail (i + 1) (by omega)
        rwa [show t + (i + 1) = t + 1 + i by omega] at h2)
      (by rwa [show t + 1 + j = t + (j + 1) by omega])]
    simp only [List.range_succ_eq_map, List.map_cons, List.map_map]
    refine congrArg (fun l => (some v, j + 1 + 1, l)) ?_
    refine congrArg₂ (fun (a : ℚ) (l : List ℚ) => a :: l) (by rw [Nat.add_zero]) ?_
    refine List.map_congr_left ?_
    intro a _
    show b * 2 ^ (t + 1 - 1 + a) = b * 2 ^ (t - 1 + (a + 1))
    rw [show t + 1 - 1 + a = t - 1 + (a + 1) by omega]

/-- C5: with a non-empty api url, if every attempt fails then
`_chamar_api_bruto` makes exactly `max_retries` attempts, returns `None`
without raising, and sleeps `backoff_base * 2^(attempt-1)` after each failed
attempt except the last; and if attempt `k ≤ max_retries` is the first to
succeed, the call returns that value immediately after `k` attempts. -/
theorem c5_chamar_api_retries (url : String) (m : Nat) (b : ℚ)
    (provider : Nat → Option JVal) (hurl : url ≠ "") :
    ((∀ i, provider i = none) →
      chamarApiBruto url m b provider
        = (none, m, (List.range (m - 1)).map fun i => b * 2 ^ i))
    ∧ (∀ k v, 1 ≤ k → k ≤ m → (∀ i, 1 ≤ i → i < k → provider i = none) →
      provider k = some v →
      chamarApiBruto url m b provider
        = (some v, k, (List.range (k - 1)).map fun i => b * 2 ^ i)) := by
  constructor
  · intro hfail
    rw [chamarApiBruto, if_neg hurl, apiLoop_all_fail provider b hfail m 1 le_rfl]
    simp
  · intro k v hk1 hkm hfail hsucc
    rw [chamarApiBruto, if_neg hurl,
      apiLoop_first_success provider b (k - 1) m 1 v (by omega) le_rfl
        (fun i hi => hfail (1 + i) (by omega) (by omega))
        (by rwa [show 1 + (k - 1) = k by omega])]
    rw [show k - 1 + 1 = k by omega]
    simp

theorem c5_chamar_api_retries_witness :
    ("x" ≠ "") ∧
    chamarApiBruto "x" 3 (7 / 10) (fun _ => none)
      = (none, 3, (List.range 2).map fun i => (7 / 10 : ℚ) * 2 ^ i) :=
  ⟨by decide, (c5_chamar_api_retries "x" 3 (7 / 10) (fun _ => none) (by decide)).1
    (fun i => rfl)⟩

/-! ## Claims C6 and C7: the normaliser -/

def itemLiteralCorreta : List (String × JVal) :=
  [("pergunta", .str "Capital?"),
   ("opcoes", .arr [.str "Rio de Janeiro", .str "Brasília"]),
   ("correta", .str "Brasília")]

/-- C6 counterexample: an item whose "correta" field is the literal text of
one of its options is dropped by `_normalizar_resposta` (the output is
empty), even though resolving the literal among the options — what the claim
asserts the normaliser does — would give index 1. -/
theorem c6_counterexample :
    normalizarResposta (.arr [.obj itemLiteralCorreta]) none = [] ∧
    specResolveCorreta (.str "Brasília") ["Rio de Janeiro", "Brasília"] = some 1 := by
  constructor
  · decide
  · decide

/-- C6 (amended): the normaliser accepts an item only when Python
`int(q["correta"])` succeeds, and then uses exactly that integer; an item
whose "correta" cannot be parsed as an integer — including a literal string
matching one of the options — is dropped without affecting sibling items. -/
theorem c6_correta_apenas_inteiro :
    (∀ (q : List (String × JVal)) (tp : Option String),
      pyInt ((getKey "correta" q).getD .null) = none → normItem tp (.obj q) = none)
    ∧ (∀ (q : List (String × JVal)) (tp : Option String) (qu : Questao),
      normItem tp (.obj q) = some qu →
      pyInt ((getKey "correta" q).getD .null) = some qu.correta)
    ∧ (∀ (xs ys : List JVal) (item : JVal) (tp : Option String),
      normItem tp item = none →
      normalizarResposta (.arr (xs ++ item :: ys)) tp
        = normalizarResposta (.arr (xs ++ ys)) tp) := by
  refine ⟨?_, ?_, ?_⟩
  · intro q tp hnone
    rcases h1 : getKey "pergunta" q with _ | pv
    · simp [normItem, h1]
    rcases h2 : getKey "opcoes" q with _ | ov
    · simp [normItem, h1, h2]
    rcases h3 : getKey "correta" q with _ | cv
    · simp [normItem, h1, h2, h3]
    rw [h3] at hnone
    simp only [Option.getD_some] at hnone
    cases ov with
    | arr opcoes =>
      by_cases hlen : 2 ≤ opcoes.length
      · simp [normItem, h1, h2, h3, hlen, hnone]
      · simp [normItem, h1, h2, h3, hlen]
    | null => simp [normItem, h1, h2, h3]
    | bool x => simp [normItem, h1, h2, h3]
    | int x => simp [normItem, h1, h2, h3]
    | str x => simp [normItem, h1, h2, h3]
    | obj x => simp [normItem, h1, h2, h3]
  · intro q tp qu hq
    rcases h1 : getKey "pergunta" q with _ | pv
    · simp [normItem, h1] at hq
    rcases h2 : getKey "opcoes" q with _ | ov
    · simp [normItem, h1, h2] at hq
    rcases h3 : getKey "correta" q with _ | cv
    · simp [normItem, h1, h2, h3] at hq
    simp only [Option.getD_some]
    cases ov with
    | arr opcoes =>
      by_cases hlen : 2 ≤ opcoes.length
      · rcases h4 : pyInt cv with _ | n
        · simp [normItem, h1, h2, h3, hlen, h4] at hq
        · simp only [normItem, h1, h2, h3, hlen, if_true, h4] at hq
          obtain rfl := Option.some.inj hq
          rfl
      · simp [normItem, h1, h2, h3, hlen] at hq
    | null => simp [normItem, h1, h2, h3] at hq
    | bool x => simp [normItem, h1, h2, h3] at hq
    | int x => simp [normItem, h1, h2, h3] at hq
    | str x => simp [normItem, h1, h2, h3] at hq
    | obj x => simp [normItem, h1, h2, h3] at hq
  · intro xs ys item tp hnone
    show (xs ++ item :: ys).filterMap (normItem tp) = (xs ++ ys).filterMap (normItem tp)
    rw [List.filterMap_append, List.filterMap_append, List.filterMap_cons_none hnone]

theorem c6_correta_apenas_inteiro_witness :
    pyInt ((getKey "correta" itemLiteralCorreta).getD .null) = none ∧
    normItem none (.obj itemLiteralCorreta) = none :=
  ⟨by decide, c6_correta_apenas_inteiro.1 itemLiteralCorreta none (by decide)⟩

def itemInvalido : List (String × JVal) :=
  [("pergunta", .str ""), ("opcoes", .arr [.str "a", .str "b"]), ("correta", .int 5)]

/-- C7 counterexample: `_normalizar_resposta` accepts an item with an empty
question text and a correct-answer index of 5 over 2 options — the produced
`Questao` violates both the non-empty-text and the index-range invariants
the claim asserts. -/
theorem c7_counterexample :
    ¬ (∀ qu ∈ normalizarResposta (.arr [.obj itemInvalido]) none,
        qu.pergunta ≠ "" ∧ 0 ≤ qu.correta ∧ qu.correta < qu.opcoes.length) := by
  decide

lemma normItem_opcoes_len (tp : Option String) (item : JVal) (qu : Questao)
    (h : normItem tp item = some qu) : 2 ≤ qu.opcoes.length := by
  cases item with
  | obj q =>
    rcases h1 : getKey "pergunta" q with _ | pv
    · simp [normItem, h1] at h
    rcases h2 : getKey "opcoes" q with _ | ov
    · simp [normItem, h1, h2] at h
    rcases h3 : getKey "correta" q with _ | cv
    · simp [normItem, h1, h2, h3] at h
    cases ov with
    | arr opcoes =>
      by_cases hlen : 2 ≤ opcoes.length
      · rcases h4 : pyInt cv with _ | n
        · simp [normItem, h1, h2, h3, hlen, h4] at h
        · simp only [normItem, h1, h2, h3, hlen, if_true, h4] at h
          obtain rfl := Option.some.inj h
          simpa using hlen
      · simp [normItem, h1, h2, h3, hlen] at h
    | null => simp [normItem, h1, h2, h3] at h
    | bool x => simp [normItem, h1, h2, h3] at h
    | int x => simp [normItem, h1, h2, h3] at h
    | str x => simp [normItem, h1, h2, h3] at h
    | obj x => simp [normItem, h1, h2, h3] at h
  | null => simp [normItem] at h
  | bool x => simp [normItem] at h
  | int x => simp [normItem] at h
  | str x => simp [normItem] at h
  | arr x => simp [normItem] at h

/-- C7 (amended): every `Questao` produced by `_normalizar_resposta` has at
least 2 options (the only data-model invariant the code enforces); the code
checks neither that `pergunta` is non-empty nor that
`0 ≤ correta < len(opcoes)`. -/
theorem c7_opcoes_pelo_menos_duas :
    ∀ (dados : JVal) (tp : Option String) (qu : Questao),
      qu ∈ normalizarResposta dados tp → 2 ≤ qu.opcoes.length := by
  intro dados tp qu hq
  obtain ⟨item, _, hitem⟩ := List.mem_filterMap.mp hq
  exact normItem_opcoes_len tp item qu hitem

def questaoInvalida : Questao := ⟨"", ["a", "b"], 5, "", "Geral"⟩

theorem c7_opcoes_pelo_menos_duas_witness :
    questaoInvalida ∈ normalizarResposta (.arr [.obj itemInvalido]) none ∧
    2 ≤ questaoInvalida.opcoes.length :=
  ⟨by decide,
    c7_opcoes_pelo_menos_duas (.arr [.obj itemInvalido]) none questaoInvalida (by decide)⟩

/-! ## Claim C8: topic resolution has no 3-day rotation -/

/-- C8 counterexample: there is no assignment of a distinct topic list to
each of the three day buckets under which the scheduler's resolved topics
agree with the spec's 3-day rotation — `configurar_jobs` uses `run_daily`
with fixed data, so days 1 and 2 (buckets 1 and 2) resolve identical topics,
forcing two distinct buckets to carry the same list. -/
theorem c8_counterexample :
    ¬ ∃ B : Nat → Fin 3 → String,
      (∀ b1 b2, b1 ∈ ([1, 2, 3] : List Nat) → b2 ∈ ([1, 2, 3] : List Nat) →
        B b1 = B b2 → b1 = b2) ∧
      ∀ d : Nat, 1 ≤ d → ∀ slot : Fin 3, topicoResolvido d slot = B (specDayBucket d) slot := by
  rintro ⟨B, hinj, h⟩
  have h12 : B (specDayBucket 1) = B (specDayBucket 2) := by
    funext slot
    rw [← h 1 (by omega) slot, ← h 2 (by omega) slot]
    rfl
  have hb1 : specDayBucket 1 = 1 := rfl
  have hb2 : specDayBucket 2 = 2 := rfl
  rw [hb1, hb2] at h12
  have h2 := hinj 1 2 (by decide) (by decide) h12
  omega

/-- C8 (amended): `configurar_jobs` registers each slot with `run_daily` and
fixed data, so for every calendar day-of-month the resolved topics are the
same: 08:00 → "Penal", 13:00 → "Constitucional", 19:00 → "Raciocínio Lógico";
no day-of-month bucket is ever computed. -/
theorem c8_topicos_fixos : ∀ (d : Nat) (slot : Fin 3),
    topicoResolvido d slot = topicoResolvido 1 slot ∧
    topicoResolvido d slot
      = ["Penal", "Constitucional", "Raciocínio Lógico"].getD slot.val "" := by
  intro d slot
  fin_cases slot <;> exact ⟨rfl, rfl⟩
